import Mathlib

/-! Formal model of the Mask Regional Prompter core (scripts/rp_core.py):
the deterministic colour allocator, region-mask ingestion, the attention
forward hook's control flow, and the hook install/uninstall lifecycle.
Machine floats of the source are modelled as exact rationals; every float
computation embedded here (dyadic hue arithmetic, 0/1 masks, their sums and
clips) is exact in double precision over the relevant range, so the rational
model is bit-faithful.  The tensor attention arithmetic itself
(rp_core.py lines 440-464 and 484-515) is kept abstract: the claims treated
here only concern the surrounding control flow. -/

namespace MaskRP

/-- RGB triple with 8-bit channels. -/
abbrev RGB : Type := ℕ × ℕ × ℕ

/-- Raster image: rows of RGB pixels (numpy array of shape H x W x 3). -/
abbrev Image : Type := List (List RGB)

/-- Boolean mask (numpy bool array of shape H x W). -/
abbrev BMask : Type := List (List Bool)

/-- Rational-valued mask (numpy float16 array of shape H x W, exact here). -/
abbrev QMask : Type := List (List ℚ)

/-- Natural-valued mask (a 0/1 mask scaled by the fill value). -/
abbrev NMask : Type := List (List ℕ)

/-- Constant MAXCOLREG = 359 (rp_core.py line 29). -/
def MAXCOLREG : ℤ := 359

/-- Constant CBLACK = 255 (rp_core.py line 31). -/
def CBLACK : ℕ := 255

/-- Constant TOKENSCON = 77 (rp_core.py line 35). -/
def TOKENSCON : ℕ := 77

/-- Fuel-driven search for the least counter at or above `c` satisfying `P`,
trying at most `fuel` candidates; returns the final counter on exhaustion.
Used to give executable form to the ceiling-log expressions of the source. -/
def leastAux (P : ℕ → Bool) : ℕ → ℕ → ℕ
  | 0, c => c
  | fuel + 1, c => if P c then c else leastAux P fuel (c + 1)

/-- Ceiling base-2 logarithm: the least `c` with `n ≤ 2 ^ c`.  This is the
exact value of `np.ceil(np.log2(n))` (rp_core.py lines 85 and 91) for `n ≥ 1`
in double precision, and also equals `Nat.clog 2 n` (proved below). -/
def ceilLog2 (n : ℕ) : ℕ := leastAux (fun c => n ≤ 2 ^ c) n 0

/-- State of the hue-generation loop of `deterministic_colours`
(rp_core.py lines 74-101): previous cycle `pcyc`, current hue `cval`,
current step `dlt`.  In the source these are floats; all values taken here
are dyadic rationals (or the integer -1), on which doubles are exact. -/
structure HueState where
  pcyc : ℤ
  cval : ℚ
  dlt : ℚ

/-- Initial loop state: `pcyc = -1`, `cval = 0`, `dlt = 0`
(rp_core.py lines 74-76). -/
def initState : HueState := ⟨-1, 0, 0⟩

/-- One iteration of the hue loop of `deterministic_colours`
(rp_core.py lines 90-101) at index `i`; the hue appended for `i` is the
`cval` of the returned state. -/
def hueStep (s : HueState) (i : ℕ) : HueState :=
  let ccyc := ceilLog2 (i + 1)
  if ccyc = 0 then { s with cval := 0, pcyc := 0 }
  else if s.pcyc ≠ (ccyc : ℤ) then
    { pcyc := (ccyc : ℤ), cval := 1 / 2 ^ ccyc, dlt := 1 / 2 ^ ccyc }
  else { s with cval := s.cval + 2 * s.dlt }

/-- Hue values appended by the loop of `deterministic_colours` for indices
`i, i+1, ...` (`cnt` of them), starting from state `s` (rp_core.py
lines 89-101, the list `lhsv`). -/
def huesFrom (s : HueState) (i : ℕ) : ℕ → List ℚ
  | 0 => []
  | cnt + 1 => (hueStep s i).cval :: huesFrom (hueStep s i) (i + 1) cnt

/-- Python float modulo `a % b` for positive `b`: `a - b * floor (a / b)`. -/
def qmod (a b : ℚ) : ℚ := a - b * ⌊a / b⌋

/-- Warm-start state of the hue loop when extending an existing colour list
of length `st > 0` (rp_core.py lines 83-87). -/
def warmState (st : ℕ) : HueState :=
  let pcyc := ceilLog2 st
  let dlt : ℚ := 1 / 2 ^ pcyc
  ⟨(pcyc : ℤ), dlt + 2 * dlt * (qmod (st : ℚ) ((2 : ℚ) ^ ((pcyc : ℤ) - 1)) - 1), dlt⟩

/-- Loop state chosen by `deterministic_colours` for start index `st`
(rp_core.py lines 78-87): fresh state when no colours exist yet, warm state
otherwise. -/
def startState (st : ℕ) : HueState := if 0 < st then warmState st else initState

/-- Truncation of a rational toward zero, as Python `int(...)` on a float. -/
def qtrunc (q : ℚ) : ℤ := if 0 ≤ q then ⌊q⌋ else ⌈q⌉

/-- The function `colorsys.hsv_to_rgb` specialised to saturation and value
1/2, as invoked at rp_core.py lines 103-104.  Exact over the dyadic hues
produced by the loop. -/
def hsv_to_rgb_half (h : ℚ) : ℚ × ℚ × ℚ :=
  let i := qtrunc (h * 6) % 6
  let f := h * 6 - qtrunc (h * 6)
  let p : ℚ := 1 / 2 * (1 - 1 / 2)
  let q : ℚ := 1 / 2 * (1 - 1 / 2 * f)
  let t : ℚ := 1 / 2 * (1 - 1 / 2 * (1 - f))
  if i = 0 then (1 / 2, t, p)
  else if i = 1 then (q, 1 / 2, p)
  else if i = 2 then (p, 1 / 2, q)
  else if i = 3 then (1 / 2, p, t)
  else if i = 4 then (p, q, 1 / 2)
  else (q, p, 1 / 2)

/-- Quantisation to an 8-bit channel: multiply by 256 and truncate, as
`(... * (CBLACK + 1)).astype(np.uint8)` (rp_core.py line 105); the values
involved lie in `[64, 128]`, so truncation is a floor with no wrap. -/
def quant8 (x : ℚ) : ℕ := (⌊x * 256⌋).toNat

/-- RGB colour generated from a hue (rp_core.py lines 103-106). -/
def colourOf (h : ℚ) : RGB :=
  let c := hsv_to_rgb_half h
  (quant8 c.1, quant8 c.2.1, quant8 c.2.2)

/-- Colours appended by `deterministic_colours` for indices `i, i+1, ...`
(`cnt` of them) starting from loop state `s` (rp_core.py lines 89-106). -/
def genFrom (s : HueState) (i : ℕ) : ℕ → List RGB
  | 0 => []
  | cnt + 1 => colourOf (hueStep s i).cval :: genFrom (hueStep s i) (i + 1) cnt

/-- The colour allocator `deterministic_colours` (rp_core.py lines 65-111):
`n ≤ 0` yields `None`; an existing list at least `n` long is returned
unchanged; otherwise the missing suffix is generated (warm-started from the
existing length) and concatenated. -/
def deterministic_colours (n : ℤ) (lcol : Option (List RGB)) : Option (List RGB) :=
  if n ≤ 0 then none
  else
    match lcol with
    | none => some (genFrom initState 0 n.toNat)
    | some l =>
      if n ≤ (l.length : ℤ) then some l
      else some (l ++ genFrom (startState l.length) l.length (n.toNat - l.length))

/-- Hue sequence underlying the first `n` allocator entries
(rp_core.py lines 89-101, the list `lhsv` of a fresh run): entry `i` of the
allocator is `colourOf` of hue `i` of this list. -/
def lhsv (n : ℕ) : List ℚ := huesFrom initState 0 n

/-- Closed form of the hue sequence: hue 0 is 0, and for `i ≥ 1` with
`c = ceilLog2 (i+1)` the hue is `(2*i + 1 - 2^c) / 2^c` (proved below). -/
def hue (i : ℕ) : ℚ :=
  if i = 0 then 0 else ((2 * i + 1 : ℚ) - 2 ^ ceilLog2 (i + 1)) / 2 ^ ceilLog2 (i + 1)

/-- Bucket of width `w` containing hue `h`. -/
def bucket (w h : ℚ) : ℤ := ⌊h / w⌋

/-- Loop state of a fresh `deterministic_colours` run after processing
indices `0, ..., i - 1`. -/
def stateAt : ℕ → HueState
  | 0 => initState
  | i + 1 => hueStep (stateAt i) i

/-- Indicator rational of a boolean mask entry (the float16 cast of
rp_core.py line 378). -/
def bq (b : Bool) : ℚ := if b then 1 else 0

/-- Tolerance match of one pixel against one colour: all three channel-wise
absolute differences strictly below 10 (rp_core.py lines 370-372). -/
def pixelMatch (p c : RGB) : Bool :=
  ((p.1 : ℤ) - (c.1 : ℤ)).natAbs < 10 && ((p.2.1 : ℤ) - (c.2.1 : ℤ)).natAbs < 10 &&
    ((p.2.2 : ℤ) - (c.2.2 : ℤ)).natAbs < 10

/-- Elementwise tolerance match of a whole image against one colour
(rp_core.py lines 370-372, the array `color_match`). -/
def colorMatch (img : Image) (c : RGB) : BMask :=
  img.map (fun row => row.map (fun p => pixelMatch p c))

/-- Whether any pixel of a boolean mask is set (`np.any`, rp_core.py
line 373; also `m.any()` at line 379). -/
def anyPix (m : BMask) : Bool := m.any (fun row => row.any id)

/-- Float mask of a boolean mask (`astype(np.float16)`, rp_core.py
line 378). -/
def qmask (m : BMask) : QMask := m.map (fun row => row.map bq)

/-- Zero mask of the same shape (`np.zeros_like`, rp_core.py line 381). -/
def zerosLike (m : QMask) : QMask := m.map (fun row => row.map (fun _ => 0))

/-- Elementwise sum of two masks (rp_core.py line 382). -/
def addQ (a b : QMask) : QMask := List.zipWith (List.zipWith (· + ·)) a b

/-- Clip a rational to `[0, 1]` (`np.clip(tm, 0, 1)`, rp_core.py line 388). -/
def clip01 (x : ℚ) : ℚ := max 0 (min x 1)

/-- Base mask from the accumulated sum: `1 - clip(tm, 0, 1)` elementwise
(rp_core.py line 388). -/
def complClip (m : QMask) : QMask := m.map (fun row => row.map (fun x => 1 - clip01 x))

/-- Complement of a boolean mask as a float mask. -/
def complB (m : BMask) : QMask := m.map (fun row => row.map (fun b => 1 - bq b))

/-- Elementwise union of boolean masks accumulated over a list, starting
from the all-false mask of the image's shape. -/
def unionB (img : Image) (ms : List BMask) : BMask :=
  ms.foldl (fun acc m => List.zipWith (List.zipWith or) acc m)
    (img.map (fun row => row.map (fun _ => false)))

/-- Colour of region id `c` in a colour list (`COLREG[c]`). -/
def colourAt (cols : List RGB) (c : ℕ) : RGB := cols.getD c (0, 0, 0)

/-- Processor and module-level state touched by the embedded operations:
the fields of `MaskRegionProcessor` relevant to the claims plus the globals
`COLREG` and `REGUSE` (the registry is an insertion-ordered association
list, like a Python dict). -/
structure MRPState where
  height : ℕ
  width : ℕ
  regmasks : List QMask
  regbase : Option QMask
  active : Bool
  colreg : Option (List RGB)
  reguse : List (ℕ × RGB)

/-- Dict-style update of the registry: overwrite the value at an existing
key, else append the pair (insertion order preserved). -/
def updateAssoc (r : List (ℕ × RGB)) (k : ℕ) (v : RGB) : List (ℕ × RGB) :=
  if r.any (fun kv => kv.1 = k) then r.map (fun kv => if kv.1 = k then (k, v) else kv)
  else r ++ [(k, v)]

/-- Colour sequence consulted by `setup_masks`:
`deterministic_colours(max(layer_count + 1, MAXCOLREG), COLREG)`
(rp_core.py line 362), with `None` read as the empty list. -/
def colsOf (s : MRPState) (layer_count : ℕ) : List RGB :=
  (deterministic_colours (max ((layer_count : ℤ) + 1) MAXCOLREG) s.colreg).getD []

/-- Detection loop of `setup_masks` (rp_core.py lines 367-375): region ids
below `layer_count` paired with their tolerance masks, kept only when some
pixel matches. -/
def detectedRegions (img : Image) (cols : List RGB) (layer_count : ℕ) : List (ℕ × BMask) :=
  (List.range layer_count).filterMap (fun c =>
    let m := colorMatch img (colourAt cols c)
    if anyPix m then some (c, m) else none)

/-- Ids of the active (detected) regions, in ascending order. -/
def activeIds (img : Image) (cols : List RGB) (layer_count : ℕ) : List ℕ :=
  (List.range layer_count).filter (fun c => anyPix (colorMatch img (colourAt cols c)))

/-- One iteration of the accumulation loop of `setup_masks`
(rp_core.py lines 377-385): cast the mask to float, and if any pixel is set,
add it into the running union `tm` (created as zeros on first use) and
append it to the region mask list. -/
def maskFold (acc : Option QMask × List QMask) (mB : BMask) : Option QMask × List QMask :=
  let m := qmask mB
  if anyPix mB then (some (addQ (acc.1.getD (zerosLike m)) m), acc.2 ++ [m])
  else acc

/-- The method `MaskRegionProcessor.setup_masks` (rp_core.py lines 352-393)
restricted to RGB images (the 2-channel stacking branch at lines 359-360
only converts grayscale input to this form).  `None` input returns the state
untouched; otherwise the colour registry is extended, regions are detected
by tolerance match, masks are accumulated, the base mask becomes
`1 - clip(tm, 0, 1)` when any region was found, and the processor becomes
active. -/
def setup_masks (s : MRPState) (img? : Option Image) (layer_count : ℕ) : MRPState :=
  match img? with
  | none => s
  | some img =>
    let cols := colsOf s layer_count
    let detected := detectedRegions img cols layer_count
    let reguse2 := detected.foldl (fun r cm => updateAssoc r cm.1 (colourAt cols cm.1)) s.reguse
    let folded := detected.foldl (fun acc cm => maskFold acc cm.2) (none, [])
    { s with
      colreg := deterministic_colours (max ((layer_count : ℤ) + 1) MAXCOLREG) s.colreg
      reguse := reguse2
      regmasks := folded.2
      regbase := match folded.1 with
        | some tm => some (complClip tm)
        | none => s.regbase
      active := true }

/-- Ceiling halving `ceil(x / 2)` iterated `y` times: the method
`MaskRegionProcessor._repeat_div` (rp_core.py lines 519-523); a
non-positive Python `y` runs the loop zero times, matching fuel 0 here. -/
def repeat_div (x : ℕ) : ℕ → ℕ
  | 0 => x
  | y + 1 => repeat_div ((x + 1) / 2) y

/-- Scale used by the forward hook: the least `k` with `hw ≤ xs * 4 ^ k`,
which is `max(ceil(log2(sqrt(hw / xs))), 0)` — the value
`math.ceil(math.log2(math.sqrt(height * width / xs)))` of rp_core.py
line 473 clamped at 0, the clamp being immaterial because `_repeat_div`
ignores a negative count (proved below against the real-valued formula). -/
def scaleOf (hw xs : ℕ) : ℕ := leastAux (fun k => hw ≤ xs * 4 ^ k) (hw + 1) 0

/-- Feature resolution derived by the forward hook (rp_core.py
lines 473-475): both base dimensions halved (with ceiling) `scale` times. -/
def derived_resolution (hh ww xs : ℕ) : ℕ × ℕ :=
  (repeat_div hh (scaleOf (hh * ww) xs), repeat_div ww (scaleOf (hh * ww) xs))

/-- Control flow of the hooked forward (rp_core.py lines 466-515).  `orig`
stands for the result of `module._original_forward` on the same arguments;
`comp` abstracts the mask-composited attention computation of lines 484-515
(floating-point tensor arithmetic, outside the claims treated here), given
the derived feature resolution; `xs` is `x.size()[1]` and `ctxTokens` the
token length of `context` when present (`context` defaults to `x`,
rp_core.py line 477). -/
def hooked_forward {α : Type} (s : MRPState) (orig : α) (comp : ℕ → ℕ → α)
    (xs : ℕ) (ctxTokens : Option ℕ) : α :=
  if s.active = false ∨ s.regmasks = [] then orig
  else
    let d := derived_resolution s.height s.width xs
    let total := ctxTokens.getD xs
    if total / TOKENSCON ≤ 1 then orig
    else comp d.1 d.2

/-- Per-channel mismatch test of `detect_mask` for `num < 0`
(rp_core.py lines 267-269): the pixel counts as unclaimed when every
channel value differs from the corresponding channel value of every
registered colour. -/
def allCh (p : RGB) (colors : List RGB) : Bool :=
  colors.all (fun c => p.1 ≠ c.1) && colors.all (fun c => p.2.1 ≠ c.2.1) &&
    colors.all (fun c => p.2.2 ≠ c.2.2)

/-- Total of all entries of a natural mask (`mask.sum()`). -/
def maskSum (m : NMask) : ℕ := (m.map (fun row => row.sum)).sum

/-- The function `detect_mask` (rp_core.py lines 244-276), returning the
mask (if any) and the updated registry.  An absent canvas yields `none`.
For `num < 0` with an empty registry every pixel gets `mult`; with a
non-empty registry a pixel gets `mult` exactly when `allCh` holds of it.
For `num ≥ 0` the pixel must equal the allocator colour of `num` exactly,
and the registry is refreshed when the resulting mask is not all zero. -/
def detect_mask (reguse : List (ℕ × RGB)) (img? : Option Image) (num : ℤ)
    (mult : ℕ) : Option NMask × List (ℕ × RGB) :=
  match img? with
  | none => (none, reguse)
  | some img =>
    if num < 0 then
      let colors := reguse.map Prod.snd
      if colors.isEmpty then (some (img.map (fun row => row.map (fun _ => mult))), reguse)
      else
        (some (img.map (fun row => row.map (fun p => if allCh p colors then mult else 0))),
          reguse)
    else
      let color := ((deterministic_colours (num + 1) none).getD []).getLastD (0, 0, 0)
      let mask := img.map (fun row => row.map (fun p => if p = color then mult else 0))
      if 0 < maskSum mask then (some mask, updateAssoc reguse num.toNat color)
      else (some mask, reguse)

/-- Next region id returned by `detect_polygons` (rp_core.py line 241):
`num + 1` when `num ≥ 0` and `num + 1 ≤ CBLACK`, else `num` unchanged.
The canvas-painting part of `detect_polygons` (cv2 contour extraction and
polygon fill, lines 217-239) is external image processing that does not
feed into this returned id. -/
def detect_polygons_next_id (num : ℤ) : ℤ :=
  if 0 ≤ num ∧ num + 1 ≤ (CBLACK : ℤ) then num + 1 else num

/-- A hookable submodule as seen by the hook manager: its `forward` slot
and the optional `_original_forward` attribute (absent = `none`). -/
structure SubModule (α : Type) where
  forward : α
  saved : Option α
deriving DecidableEq

/-- Install branch of `_hook_forwards_standard` / `_hook_forwards_forge`
per submodule (rp_core.py lines 421-422 and 433-434): save the current
forward into `_original_forward`, then overwrite `forward` with the hook
`hk`. -/
def install {α : Type} (hk : α) (m : SubModule α) : SubModule α :=
  ⟨hk, some m.forward⟩

/-- Remove branch per submodule (rp_core.py lines 417-419 and 429-431):
restore `forward` from `_original_forward` and delete the attribute when it
exists, else leave the submodule untouched. -/
def uninstall {α : Type} (m : SubModule α) : SubModule α :=
  match m.saved with
  | some f => ⟨f, none⟩
  | none => m

/-! ### Helper lemmas: the bounded least-counter search -/

theorem leastAux_le (P : ℕ → Bool) : ∀ (fuel c : ℕ), c ≤ leastAux P fuel c := by
  intro fuel
  induction fuel with
  | zero => intro c; exact Nat.le_refl c
  | succ fuel ih =>
    intro c
    unfold leastAux
    split
    · exact Nat.le_refl c
    · exact Nat.le_trans (Nat.le_succ c) (ih (c + 1))

theorem leastAux_spec (P : ℕ → Bool) :
    ∀ (fuel c : ℕ), (∃ j, j < fuel ∧ P (c + j) = true) →
      P (leastAux P fuel c) = true ∧
        ∀ m, c ≤ m → m < leastAux P fuel c → P m = false := by
  intro fuel
  induction fuel with
  | zero =>
    rintro c ⟨j, hj, -⟩
    omega
  | succ fuel ih =>
    rintro c ⟨j, hj, hP⟩
    unfold leastAux
    by_cases h : P c = true
    · rw [if_pos h]
      exact ⟨h, fun m h1 h2 => absurd h2 (Nat.not_lt.mpr h1)⟩
    · rw [if_neg h]
      have hj0 : j ≠ 0 := by
        rintro rfl
        exact h hP
      obtain ⟨j2, rfl⟩ : ∃ j2, j = j2 + 1 := ⟨j - 1, by omega⟩
      obtain ⟨h1, h2⟩ := ih (c + 1) ⟨j2, by omega, by
        have : c + 1 + j2 = c + (j2 + 1) := by omega
        rw [this]; exact hP⟩
      refine ⟨h1, fun m hcm hlt => ?_⟩
      rcases Nat.eq_or_lt_of_le hcm with hcm2 | hcm2
      · rw [← hcm2]
        exact Bool.eq_false_iff.mpr h
      · exact h2 m hcm2 hlt

theorem ceilLog2_eq_clog (n : ℕ) : ceilLog2 n = Nat.clog 2 n := by
  cases n with
  | zero => simp [ceilLog2, leastAux, Nat.clog_zero_right]
  | succ k =>
    have hclt : Nat.clog 2 (k + 1) < k + 1 := by
      have h1 : k + 1 ≤ 2 ^ k := Nat.lt_two_pow k
      have := (Nat.le_pow_iff_clog_le (b := 2) one_lt_two).mp h1
      omega
    have hPc : (k + 1 : ℕ) ≤ 2 ^ Nat.clog 2 (k + 1) := Nat.le_pow_clog one_lt_two _
    have heq : ceilLog2 (k + 1) = leastAux (fun c => decide (k + 1 ≤ 2 ^ c)) (k + 1) 0 := rfl
    obtain ⟨h1, h2⟩ := leastAux_spec (fun c => decide (k + 1 ≤ 2 ^ c)) (k + 1) 0
      ⟨Nat.clog 2 (k + 1), hclt, by simpa using hPc⟩
    rw [← heq] at h1 h2
    simp only [decide_eq_true_eq] at h1
    apply Nat.le_antisymm
    · by_contra hlt
      push_neg at hlt
      have hfal := h2 (Nat.clog 2 (k + 1)) (Nat.zero_le _) hlt
      simp only [decide_eq_false_iff_not] at hfal
      exact hfal hPc
    · exact (Nat.le_pow_iff_clog_le one_lt_two).mp h1

theorem scaleOf_spec (hw xs : ℕ) (hxs : 0 < xs) :
    hw ≤ xs * 4 ^ scaleOf hw xs ∧ ∀ m, m < scaleOf hw xs → ¬hw ≤ xs * 4 ^ m := by
  have hPhw : hw ≤ xs * 4 ^ hw := by
    have h1 : hw < 2 ^ hw := Nat.lt_two_pow hw
    have h2 : (2 : ℕ) ^ hw ≤ 4 ^ hw := Nat.pow_le_pow_left (by norm_num) hw
    have h3 : (4 : ℕ) ^ hw ≤ xs * 4 ^ hw := Nat.le_mul_of_pos_left _ hxs
    omega
  obtain ⟨h1, h2⟩ := leastAux_spec (fun k => hw ≤ xs * 4 ^ k) (hw + 1) 0
    ⟨hw, by omega, by simpa using hPhw⟩
  refine ⟨by simpa [scaleOf] using h1, fun m hm => ?_⟩
  have := h2 m (Nat.zero_le _) (by simpa [scaleOf] using hm)
  simpa using this

/-! ### Claim C2: prefix stability of the allocator -/

theorem genFrom_length : ∀ (cnt : ℕ) (s : HueState) (i : ℕ), (genFrom s i cnt).length = cnt := by
  intro cnt
  induction cnt with
  | zero => intro s i; rfl
  | succ c ih => intro s i; simp [genFrom, ih]

theorem deterministic_colours_some_arg (n : ℤ) (hn : 0 < n) (l : List RGB) :
    deterministic_colours n (some l) =
      if n ≤ (l.length : ℤ) then some l
      else some (l ++ genFrom (startState l.length) l.length (n.toNat - l.length)) := by
  unfold deterministic_colours
  rw [if_neg (not_le.mpr hn)]

theorem deterministic_colours_none_arg (n : ℤ) (hn : 0 < n) :
    deterministic_colours n none = some (genFrom initState 0 n.toNat) := by
  unfold deterministic_colours
  rw [if_neg (not_le.mpr hn)]

/-- C2: requesting `n ≥ m` colours on top of the result of requesting `m`
returns a sequence whose first `m` entries are the `m`-entry sequence
itself, bit for bit; an existing sequence of length at least `n` is
returned unchanged; and otherwise exactly the missing suffix is generated
and concatenated onto the existing sequence. -/
theorem claim_C2_issued_stable (m n : ℤ) (hm : 0 < m) (hmn : m ≤ n) :
    (∃ lm ln : List RGB,
        deterministic_colours m none = some lm ∧
        deterministic_colours n (deterministic_colours m none) = some ln ∧
        ln.take m.toNat = lm) ∧
      (∀ l : List RGB, n ≤ (l.length : ℤ) → deterministic_colours n (some l) = some l) ∧
      (∀ l : List RGB, (l.length : ℤ) < n →
        deterministic_colours n (some l) =
          some (l ++ genFrom (startState l.length) l.length (n.toNat - l.length))) := by
  have hn : (0 : ℤ) < n := lt_of_lt_of_le hm hmn
  refine ⟨?_, fun l hl => ?_, fun l hl => ?_⟩
  · set lm : List RGB := genFrom initState 0 m.toNat with hlm
    have hdm : deterministic_colours m none = some lm :=
      deterministic_colours_none_arg m hm
    have hmlen : m.toNat = lm.length := by rw [hlm, genFrom_length]
    by_cases hcase : n ≤ (lm.length : ℤ)
    · refine ⟨lm, lm, hdm, ?_, ?_⟩
      · rw [hdm, deterministic_colours_some_arg n hn, if_pos hcase]
      · rw [hmlen, List.take_length]
    · refine ⟨lm, lm ++ genFrom (startState lm.length) lm.length (n.toNat - lm.length),
        hdm, ?_, ?_⟩
      · rw [hdm, deterministic_colours_some_arg n hn, if_neg hcase]
      · rw [hmlen, List.take_left]
  · rw [deterministic_colours_some_arg n hn, if_pos hl]
  · rw [deterministic_colours_some_arg n hn, if_neg (not_le.mpr hl)]

/-- Witness for C2 at `m = 1`, `n = 2`. -/
theorem claim_C2_issued_stable_witness :
    (0 : ℤ) < 1 ∧ (1 : ℤ) ≤ 2 ∧
      ∃ lm ln : List RGB,
        deterministic_colours 1 none = some lm ∧
        deterministic_colours 2 (deterministic_colours 1 none) = some ln ∧
        ln.take (1 : ℤ).toNat = lm :=
  ⟨by decide, by decide, (claim_C2_issued_stable 1 2 (by decide) (by decide)).1⟩

/-! ### Claim C4: derived feature resolution -/

theorem scaleOf_key (hw xs k : ℕ) (hhw : 0 < hw) (hxs : 0 < xs) :
    hw ≤ xs * 4 ^ k ↔
      (⌈Real.logb 2 (Real.sqrt ((hw : ℝ) / (xs : ℝ)))⌉).toNat ≤ k := by
  have hxr : (0 : ℝ) < (xs : ℝ) := by exact_mod_cast hxs
  have hr : (0 : ℝ) < (hw : ℝ) / (xs : ℝ) := div_pos (by exact_mod_cast hhw) hxr
  have hpow : ((2 : ℝ) ^ k) ^ 2 = (4 : ℝ) ^ k := by
    rw [← pow_mul, mul_comm k 2, pow_mul]
    norm_num
  have hchain : Real.logb 2 (Real.sqrt ((hw : ℝ) / (xs : ℝ))) ≤ (k : ℝ) ↔
      hw ≤ xs * 4 ^ k := by
    rw [Real.logb_le_iff_le_rpow one_lt_two (Real.sqrt_pos.mpr hr), Real.rpow_natCast,
      Real.sqrt_le_left (by positivity), hpow, div_le_iff₀ hxr]
    rw [mul_comm ((4 : ℝ) ^ k) (xs : ℝ)]
    exact_mod_cast Iff.rfl
  rw [← hchain]
  constructor
  · intro h
    rw [Int.toNat_le, Int.ceil_le]
    push_cast
    exact h
  · intro h
    rw [Int.toNat_le, Int.ceil_le] at h
    push_cast at h
    exact h

/-- Shared form of the scale actually computed by the forward hook: it is
exactly the (clamped) ceiling of `log2 (sqrt (hw / xs))` over the reals. -/
theorem scaleOf_eq_ceil (hw xs : ℕ) (hhw : 0 < hw) (hxs : 0 < xs) :
    scaleOf hw xs = (⌈Real.logb 2 (Real.sqrt ((hw : ℝ) / (xs : ℝ)))⌉).toNat := by
  obtain ⟨hP, hmin⟩ := scaleOf_spec hw xs hxs
  have h1 := (scaleOf_key hw xs (scaleOf hw xs) hhw hxs).mp hP
  have h2 : scaleOf hw xs ≤ (⌈Real.logb 2 (Real.sqrt ((hw : ℝ) / (xs : ℝ)))⌉).toNat := by
    by_contra hlt
    push_neg at hlt
    exact hmin _ hlt ((scaleOf_key hw xs _ hhw hxs).mpr (Nat.le_refl _))
  omega

/-- C4: for every forward call with positive base dimensions and flattened
spatial token count `xs`, the derived feature resolution halves each base
dimension (with ceiling division) `ceil(log2(sqrt(H*W/xs)))` times (clamped
at zero halvings, as the halving loop ignores a negative count); in
particular for `H = W = 512` and `xs = 4096` it is exactly `64 × 64`. -/
theorem claim_C4_resolution :
    (∀ hh ww xs : ℕ, 0 < hh → 0 < ww → 0 < xs →
        derived_resolution hh ww xs =
          (repeat_div hh (⌈Real.logb 2 (Real.sqrt (((hh * ww : ℕ) : ℝ) / (xs : ℝ)))⌉).toNat,
           repeat_div ww (⌈Real.logb 2 (Real.sqrt (((hh * ww : ℕ) : ℝ) / (xs : ℝ)))⌉).toNat)) ∧
      derived_resolution 512 512 4096 = (64, 64) := by
  constructor
  · intro hh ww xs h1 h2 h3
    unfold derived_resolution
    rw [scaleOf_eq_ceil (hh * ww) xs (Nat.mul_pos h1 h2) h3]
  · decide

/-- Witness for C4 at the claim's own concrete instance. -/
theorem claim_C4_resolution_witness :
    0 < 512 ∧ 0 < 512 ∧ 0 < 4096 ∧
      derived_resolution 512 512 4096 =
        (repeat_div 512 (⌈Real.logb 2 (Real.sqrt (((512 * 512 : ℕ) : ℝ) / (4096 : ℝ)))⌉).toNat,
         repeat_div 512 (⌈Real.logb 2 (Real.sqrt (((512 * 512 : ℕ) : ℝ) / (4096 : ℝ)))⌉).toNat) :=
  ⟨by decide, by decide, by decide,
    claim_C4_resolution.1 512 512 4096 (by decide) (by decide) (by decide)⟩

/-! ### Claim C5: the background mask of `detect_mask` -/

/-- C5 counterexample: registry holding only red `(255, 0, 0)` and a
one-pixel canvas whose pixel is blue `(0, 0, 255)`.  The pixel's colour is
not equal to any colour in the registry, so the claim demands fillValue
(255) there; the code produces 0, because the pixel shares its green
channel value with the registered red. -/
theorem claim_C5_cex :
    (detect_mask [(0, (255, 0, 0))] (some [[(0, 0, 255)]]) (-1) 255).1 = some [[0]] ∧
      ((0, 0, 255) : RGB) ≠ ((255, 0, 0) : RGB) ∧ (0 : ℕ) ≠ 255 := by
  refine ⟨by decide, by decide, by decide⟩

/-- C5 amended: for every call with `regionId < 0`, an absent canvas gives
an absent result; an empty registry gives the all-fillValue mask; and with
a non-empty registry a pixel receives fillValue exactly when each of its
three channel values differs from the corresponding channel value of every
registered colour (a per-channel test, stricter than whole-colour
inequality), and 0 otherwise. -/
theorem claim_C5_amended (reguse : List (ℕ × RGB)) (img? : Option Image) (num : ℤ)
    (mult : ℕ) (hnum : num < 0) :
    (img? = none → (detect_mask reguse img? num mult).1 = none) ∧
      (∀ img : Image, img? = some img → reguse = [] →
        (detect_mask reguse img? num mult).1 =
          some (img.map (fun row => row.map (fun _ => mult)))) ∧
      (∀ img : Image, img? = some img → reguse ≠ [] →
        (detect_mask reguse img? num mult).1 =
          some (img.map (fun row => row.map (fun p =>
            if (∀ c ∈ reguse.map Prod.snd, p.1 ≠ c.1) ∧
                (∀ c ∈ reguse.map Prod.snd, p.2.1 ≠ c.2.1) ∧
                (∀ c ∈ reguse.map Prod.snd, p.2.2 ≠ c.2.2) then mult else 0)))) := by
  refine ⟨?_, ?_, ?_⟩
  · rintro rfl
    rfl
  · rintro img rfl rfl
    simp [detect_mask, hnum]
  · rintro img rfl hne
    have hfun : (fun p : RGB => if allCh p (reguse.map Prod.snd) then mult else 0) =
        (fun p : RGB =>
          if (∀ c ∈ reguse.map Prod.snd, p.1 ≠ c.1) ∧
              (∀ c ∈ reguse.map Prod.snd, p.2.1 ≠ c.2.1) ∧
              (∀ c ∈ reguse.map Prod.snd, p.2.2 ≠ c.2.2) then mult else 0) := by
      funext p
      refine if_congr ?_ rfl rfl
      simp only [allCh, Bool.and_eq_true, List.all_eq_true, decide_eq_true_eq, and_assoc]
    have hcols : (reguse.map Prod.snd).isEmpty = false := by
      cases reguse with
      | nil => exact absurd rfl hne
      | cons a l => rfl
    simp only [detect_mask, if_pos hnum, hcols, Bool.false_eq_true, if_false, hfun]

/-- Witness for C5 amended on a one-pixel white canvas with red registered. -/
theorem claim_C5_amended_witness :
    (-1 : ℤ) < 0 ∧ ([(0, (255, 0, 0))] : List (ℕ × RGB)) ≠ [] ∧
      (detect_mask [(0, (255, 0, 0))] (some [[(255, 255, 255)]]) (-1) 255).1 =
        some (([[(255, 255, 255)]] : Image).map (fun row => row.map (fun p =>
          if (∀ c ∈ ([(0, (255, 0, 0))] : List (ℕ × RGB)).map Prod.snd, p.1 ≠ c.1) ∧
              (∀ c ∈ ([(0, (255, 0, 0))] : List (ℕ × RGB)).map Prod.snd, p.2.1 ≠ c.2.1) ∧
              (∀ c ∈ ([(0, (255, 0, 0))] : List (ℕ × RGB)).map Prod.snd, p.2.2 ≠ c.2.2)
            then 255 else 0))) :=
  ⟨by decide, by decide,
    (claim_C5_amended [(0, (255, 0, 0))] (some [[(255, 255, 255)]]) (-1) 255
      (by decide)).2.2 [[(255, 255, 255)]] rfl (by decide)⟩

/-! ### Claim C3: mask ingestion -/

theorem zipWith_map_same {β γ1 γ2 δ : Type} (f : γ1 → γ2 → δ) (g : β → γ1) (h2 : β → γ2) :
    ∀ l : List β, List.zipWith f (l.map g) (l.map h2) = l.map (fun x => f (g x) (h2 x)) := by
  intro l
  induction l with
  | nil => rfl
  | cons a t ih => rw [List.map_cons, List.map_cons, List.map_cons, List.zipWith_cons_cons, ih]

theorem addQ_map_map (img : Image) (g h2 : RGB → ℚ) :
    addQ (img.map (fun row => row.map g)) (img.map (fun row => row.map h2)) =
      img.map (fun row => row.map (fun p => g p + h2 p)) := by
  unfold addQ
  rw [zipWith_map_same]
  have : (fun row : List RGB => List.zipWith (· + ·) (row.map g) (row.map h2)) =
      (fun row : List RGB => row.map (fun p => g p + h2 p)) :=
    funext fun row => zipWith_map_same _ _ _ row
  rw [this]

theorem orZip_map_map (img : Image) (g h2 : RGB → Bool) :
    List.zipWith (List.zipWith or) (img.map (fun row => row.map g))
        (img.map (fun row => row.map h2)) =
      img.map (fun row => row.map (fun p => g p || h2 p)) := by
  rw [zipWith_map_same]
  have : (fun row : List RGB => List.zipWith or (row.map g) (row.map h2)) =
      (fun row : List RGB => row.map (fun p => g p || h2 p)) :=
    funext fun row => zipWith_map_same _ _ _ row
  rw [this]

theorem qmask_colorMatch (img : Image) (col : RGB) :
    qmask (colorMatch img col) =
      img.map (fun row => row.map (fun p => bq (pixelMatch p col))) := by
  simp [qmask, colorMatch, List.map_map, Function.comp]

theorem zerosLike_map (img : Image) (g : RGB → ℚ) :
    zerosLike (img.map (fun row => row.map g)) =
      img.map (fun row => row.map (fun _ => (0 : ℚ))) := by
  simp [zerosLike, List.map_map, Function.comp]

theorem complClip_map (img : Image) (g : RGB → ℚ) :
    complClip (img.map (fun row => row.map g)) =
      img.map (fun row => row.map (fun p => 1 - clip01 (g p))) := by
  simp [complClip, List.map_map, Function.comp]

theorem complB_map (img : Image) (g : RGB → Bool) :
    complB (img.map (fun row => row.map g)) =
      img.map (fun row => row.map (fun p => 1 - bq (g p))) := by
  simp [complB, List.map_map, Function.comp]

theorem filterMap_if {β : Type} (p : ℕ → Bool) (g : ℕ → β) :
    ∀ l : List ℕ, (l.filterMap (fun c => if p c then some (c, g c) else none)) =
      (l.filter p).map (fun c => (c, g c)) := by
  intro l
  induction l with
  | nil => rfl
  | cons a t ih =>
    by_cases h : p a = true
    · simp [List.filterMap_cons, List.filter_cons, h, ih]
    · simp [List.filterMap_cons, List.filter_cons, h, ih]

theorem detectedRegions_eq (img : Image) (cols : List RGB) (lc : ℕ) :
    detectedRegions img cols lc =
      (activeIds img cols lc).map (fun c => (c, colorMatch img (colourAt cols c))) := by
  unfold detectedRegions activeIds
  exact filterMap_if _ _ _

theorem activeIds_all (img : Image) (cols : List RGB) (lc : ℕ) :
    ∀ c ∈ activeIds img cols lc, anyPix (colorMatch img (colourAt cols c)) = true := by
  intro c hc
  exact (List.mem_filter.mp hc).2

theorem anyPix_iff (img : Image) (col : RGB) :
    anyPix (colorMatch img col) = true ↔
      ∃ row ∈ img, ∃ p ∈ row, pixelMatch p col = true := by
  simp [anyPix, colorMatch, List.any_eq_true]

theorem bq_nonneg (b : Bool) : 0 ≤ bq b := by
  cases b <;> norm_num [bq]

theorem bq_sum_nonneg (p : RGB) (f : ℕ → RGB) (ids : List ℕ) :
    0 ≤ (ids.map (fun c => bq (pixelMatch p (f c)))).sum := by
  apply List.sum_nonneg
  intro x hx
  obtain ⟨c, -, rfl⟩ := List.mem_map.mp hx
  exact bq_nonneg _

theorem clip01_one_add (s : ℚ) (hs : 0 ≤ s) : clip01 (1 + s) = 1 := by
  unfold clip01
  rw [min_eq_right (by linarith), max_eq_right (by norm_num)]

theorem clip01_bq_sum (p : RGB) (f : ℕ → RGB) :
    ∀ ids : List ℕ,
      clip01 ((ids.map (fun c => bq (pixelMatch p (f c)))).sum) =
        bq (ids.any (fun c => pixelMatch p (f c))) := by
  intro ids
  induction ids with
  | nil => norm_num [clip01, bq]
  | cons c rest ih =>
    rw [List.map_cons, List.sum_cons, List.any_cons]
    cases hq : pixelMatch p (f c)
    · simpa [bq] using ih
    · have hs := bq_sum_nonneg p f rest
      rw [Bool.true_or, show bq true = (1 : ℚ) from rfl]
      exact clip01_one_add _ hs

theorem maskFold_fold (img : Image) (f : ℕ → RGB) :
    ∀ ids : List ℕ, (∀ c ∈ ids, anyPix (colorMatch img (f c)) = true) →
      ∀ (g : RGB → ℚ) (ms : List QMask),
        ids.foldl (fun acc c => maskFold acc (colorMatch img (f c)))
            (some (img.map (fun row => row.map g)), ms) =
          (some (img.map (fun row => row.map (fun p =>
              g p + ((ids.map (fun c => bq (pixelMatch p (f c)))).sum)))),
            ms ++ ids.map (fun c => qmask (colorMatch img (f c)))) := by
  intro ids
  induction ids with
  | nil =>
    intro _ g ms
    simp
  | cons c rest ih =>
    intro hall g ms
    rw [List.foldl_cons]
    have hc : anyPix (colorMatch img (f c)) = true := hall c (by simp)
    have hstep : maskFold (some (img.map (fun row => row.map g)), ms) (colorMatch img (f c)) =
        (some (img.map (fun row => row.map (fun p => g p + bq (pixelMatch p (f c))))),
          ms ++ [qmask (colorMatch img (f c))]) := by
      unfold maskFold
      rw [if_pos hc]
      simp only [Option.getD_some]
      rw [qmask_colorMatch, addQ_map_map]
    rw [hstep,
      ih (fun x hx => hall x (by simp [hx])) (fun p => g p + bq (pixelMatch p (f c)))
        (ms ++ [qmask (colorMatch img (f c))])]
    refine congrArg₂ Prod.mk ?_ ?_
    · refine congrArg some ?_
      have : (fun p : RGB =>
            g p + bq (pixelMatch p (f c)) +
              ((rest.map (fun c2 => bq (pixelMatch p (f c2)))).sum)) =
          (fun p : RGB =>
            g p + (((c :: rest).map (fun c2 => bq (pixelMatch p (f c2)))).sum)) :=
        funext fun p => by rw [List.map_cons, List.sum_cons]; ring
      rw [this]
    · rw [List.map_cons]
      simp

theorem setup_fold_eval (img : Image) (f : ℕ → RGB) (ids : List ℕ)
    (hall : ∀ c ∈ ids, anyPix (colorMatch img (f c)) = true) :
    ids.foldl (fun acc c => maskFold acc (colorMatch img (f c)))
        ((none : Option QMask), ([] : List QMask)) =
      ((if ids = [] then none else
          some (img.map (fun row => row.map (fun p =>
            ((ids.map (fun c => bq (pixelMatch p (f c)))).sum))))),
        ids.map (fun c => qmask (colorMatch img (f c)))) := by
  cases ids with
  | nil => simp
  | cons c rest =>
    rw [List.foldl_cons]
    have hc : anyPix (colorMatch img (f c)) = true := hall c (by simp)
    have hstep : maskFold ((none : Option QMask), ([] : List QMask)) (colorMatch img (f c)) =
        (some (img.map (fun row => row.map (fun p => 0 + bq (pixelMatch p (f c))))),
          [qmask (colorMatch img (f c))]) := by
      unfold maskFold
      rw [if_pos hc]
      simp only [Option.getD_none]
      rw [qmask_colorMatch, zerosLike_map, addQ_map_map]
      simp
    rw [hstep,
      maskFold_fold img f rest (fun x hx => hall x (by simp [hx]))
        (fun p => 0 + bq (pixelMatch p (f c))) [qmask (colorMatch img (f c))]]
    rw [if_neg (by simp : ¬(c :: rest = []))]
    refine congrArg₂ Prod.mk ?_ ?_
    · refine congrArg some ?_
      have : (fun p : RGB =>
            0 + bq (pixelMatch p (f c)) +
              ((rest.map (fun c2 => bq (pixelMatch p (f c2)))).sum)) =
          (fun p : RGB => (((c :: rest).map (fun c2 => bq (pixelMatch p (f c2)))).sum)) :=
        funext fun p => by rw [List.map_cons, List.sum_cons]; ring
      rw [this]
    · rw [List.map_cons]
      simp

theorem setup_fold_pairs (img : Image) (f : ℕ → RGB) (ids : List ℕ)
    (hall : ∀ c ∈ ids, anyPix (colorMatch img (f c)) = true) :
    (ids.map (fun c => (c, colorMatch img (f c)))).foldl
        (fun acc cm => maskFold acc cm.2) ((none : Option QMask), ([] : List QMask)) =
      ((if ids = [] then none else
          some (img.map (fun row => row.map (fun p =>
            ((ids.map (fun c => bq (pixelMatch p (f c)))).sum))))),
        ids.map (fun c => qmask (colorMatch img (f c)))) := by
  rw [List.foldl_map]
  exact setup_fold_eval img f ids hall

theorem orFold (img : Image) (f : ℕ → RGB) :
    ∀ (ids : List ℕ) (g : RGB → Bool),
      ids.foldl (fun acc c => List.zipWith (List.zipWith or) acc (colorMatch img (f c)))
          (img.map (fun row => row.map g)) =
        img.map (fun row => row.map (fun p =>
          g p || ids.any (fun c => pixelMatch p (f c)))) := by
  intro ids
  induction ids with
  | nil => intro g; simp
  | cons c rest ih =>
    intro g
    rw [List.foldl_cons]
    have hstep : List.zipWith (List.zipWith or) (img.map (fun row => row.map g))
        (colorMatch img (f c)) =
        img.map (fun row => row.map (fun p => g p || pixelMatch p (f c))) := by
      rw [show colorMatch img (f c) =
          img.map (fun row => row.map (fun p => pixelMatch p (f c))) from rfl]
      exact orZip_map_map img g _
    rw [hstep, ih]
    have : (fun p : RGB =>
          (g p || pixelMatch p (f c)) || rest.any (fun c2 => pixelMatch p (f c2))) =
        (fun p : RGB => g p || (c :: rest).any (fun c2 => pixelMatch p (f c2))) :=
      funext fun p => by rw [List.any_cons, Bool.or_assoc]
    rw [this]

theorem unionB_maps (img : Image) (f : ℕ → RGB) (ids : List ℕ) :
    unionB img (ids.map (fun c => colorMatch img (f c))) =
      img.map (fun row => row.map (fun p => ids.any (fun c => pixelMatch p (f c)))) := by
  unfold unionB
  rw [List.foldl_map, orFold img f ids (fun _ => false)]
  simp

/-- C3: region id `c < layerCount` is active (appears among the detected
region ids) iff some pixel of the image lies within per-channel tolerance
10 of `ColourSequence[c]`; each active region contributes exactly one mask
(its tolerance-match mask cast to float), in ascending id order, inactive
ids contributing none; and when at least one region is active, the stored
base mask equals the pointwise complement (1 minus the clipped-to-[0,1]
sum) of the union of all the active region masks. -/
theorem claim_C3_mask_ingestion (s : MRPState) (img : Image) (lc : ℕ) :
    (∀ c : ℕ, c ∈ activeIds img (colsOf s lc) lc ↔
        c < lc ∧ ∃ row ∈ img, ∃ p ∈ row,
          pixelMatch p (colourAt (colsOf s lc) c) = true) ∧
      (setup_masks s (some img) lc).regmasks =
        (activeIds img (colsOf s lc) lc).map
          (fun c => qmask (colorMatch img (colourAt (colsOf s lc) c))) ∧
      (activeIds img (colsOf s lc) lc ≠ [] →
        (setup_masks s (some img) lc).regbase =
          some (complB (unionB img ((activeIds img (colsOf s lc) lc).map
            (fun c => colorMatch img (colourAt (colsOf s lc) c)))))) := by
  have hdet : detectedRegions img (colsOf s lc) lc =
      (activeIds img (colsOf s lc) lc).map
        (fun c => (c, colorMatch img (colourAt (colsOf s lc) c))) :=
    detectedRegions_eq img (colsOf s lc) lc
  have hfold := setup_fold_pairs img (colourAt (colsOf s lc))
    (activeIds img (colsOf s lc) lc) (activeIds_all img (colsOf s lc) lc)
  refine ⟨fun c => ?_, ?_, fun hne => ?_⟩
  · simp only [activeIds, List.mem_filter, List.mem_range]
    rw [anyPix_iff]
  · have hproj : (setup_masks s (some img) lc).regmasks =
        ((detectedRegions img (colsOf s lc) lc).foldl (fun acc cm => maskFold acc cm.2)
          ((none : Option QMask), ([] : List QMask))).2 := rfl
    rw [hproj, hdet, hfold]
  · have hproj : (setup_masks s (some img) lc).regbase =
        (match ((detectedRegions img (colsOf s lc) lc).foldl
            (fun acc cm => maskFold acc cm.2)
            ((none : Option QMask), ([] : List QMask))).1 with
          | some tm => some (complClip tm)
          | none => s.regbase) := rfl
    rw [hproj, hdet, hfold, if_neg hne]
    change some (complClip _) = _
    rw [complClip_map, unionB_maps img (colourAt (colsOf s lc)), complB_map]
    have : (fun p : RGB =>
          1 - clip01 (((activeIds img (colsOf s lc) lc).map
            (fun c => bq (pixelMatch p (colourAt (colsOf s lc) c)))).sum)) =
        (fun p : RGB =>
          1 - bq ((activeIds img (colsOf s lc) lc).any
            (fun c => pixelMatch p (colourAt (colsOf s lc) c)))) :=
      funext fun p => by
        rw [clip01_bq_sum p (colourAt (colsOf s lc))]
    rw [this]

set_option maxRecDepth 40000 in
/-- Witness for C3 on a one-pixel black image with a pre-filled colour
registry of 359 black entries, so that region 0 is active. -/
theorem claim_C3_mask_ingestion_witness :
    activeIds [[(0, 0, 0)]]
        (colsOf (⟨1, 1, [], none, false,
          some (List.replicate 359 ((0, 0, 0) : RGB)), []⟩ : MRPState) 1) 1 ≠ [] ∧
      (setup_masks (⟨1, 1, [], none, false,
          some (List.replicate 359 ((0, 0, 0) : RGB)), []⟩ : MRPState)
        (some [[(0, 0, 0)]]) 1).regbase =
        some (complB (unionB [[(0, 0, 0)]]
          ((activeIds [[(0, 0, 0)]]
            (colsOf (⟨1, 1, [], none, false,
              some (List.replicate 359 ((0, 0, 0) : RGB)), []⟩ : MRPState) 1) 1).map
            (fun c => colorMatch [[(0, 0, 0)]]
              (colourAt (colsOf (⟨1, 1, [], none, false,
                some (List.replicate 359 ((0, 0, 0) : RGB)), []⟩ : MRPState) 1) c))))) :=
  ⟨by decide,
    (claim_C3_mask_ingestion (⟨1, 1, [], none, false,
        some (List.replicate 359 ((0, 0, 0) : RGB)), []⟩ : MRPState)
      [[(0, 0, 0)]] 1).2.2 (by decide)⟩

/-! ### Claim C9: a non-positive requested count -/

/-- C9: for every `n ≤ 0` and every value of the optional existing colour
sequence, the allocator returns the absent result (and, being a total
function of its arguments, raises no error). -/
theorem claim_C9_nonpositive (n : ℤ) (hn : n ≤ 0) (lcol : Option (List RGB)) :
    deterministic_colours n lcol = none := by
  simp [deterministic_colours, hn]

/-- Witness for C9 at `n = 0` with an existing sequence longer than `n`. -/
theorem claim_C9_nonpositive_witness :
    (0 : ℤ) ≤ 0 ∧ deterministic_colours 0 (some [(128, 64, 64)]) = none :=
  ⟨Int.le_refl 0, claim_C9_nonpositive 0 (Int.le_refl 0) (some [(128, 64, 64)])⟩

/-! ### Claim C7: next region id returned by the stroke-commit -/

/-- C7 counterexample: at `regionId = 256` the code returns 256 unchanged
(the guard `num + 1 <= CBLACK` fails, so no increment and no capping),
whereas the claimed value `regionId + 1` capped at 255 would be 255. -/
theorem claim_C7_cex :
    detect_polygons_next_id 256 = 256 ∧ min (256 + 1 : ℤ) 255 = 255 ∧ (256 : ℤ) ≠ 255 := by
  refine ⟨by decide, by decide, by decide⟩

/-- C7 amended: for `0 ≤ regionId` with `regionId + 1 ≤ 255` the returned
id is `regionId + 1`; for `regionId < 0`, and also for `regionId ≥ 255`,
the id is returned unchanged (so incrementing never exceeds 255, but inputs
at or above 255 pass through rather than being capped down to 255). -/
theorem claim_C7_amended (num : ℤ) :
    (0 ≤ num → num + 1 ≤ 255 → detect_polygons_next_id num = num + 1) ∧
      (0 ≤ num → 255 < num + 1 → detect_polygons_next_id num = num) ∧
      (num < 0 → detect_polygons_next_id num = num) := by
  unfold detect_polygons_next_id
  refine ⟨fun h1 h2 => ?_, fun h1 h2 => ?_, fun h1 => ?_⟩
  · rw [if_pos ⟨h1, by unfold CBLACK; exact_mod_cast h2⟩]
  · rw [if_neg]
    rintro ⟨-, hc⟩
    unfold CBLACK at hc
    omega
  · rw [if_neg]
    rintro ⟨hc, -⟩
    omega

/-- Witness for C7 amended, at `regionId = 3`. -/
theorem claim_C7_amended_witness :
    (0 : ℤ) ≤ 3 ∧ (3 : ℤ) + 1 ≤ 255 ∧ detect_polygons_next_id 3 = 3 + 1 :=
  ⟨by decide, by decide, (claim_C7_amended 3).1 (by decide) (by decide)⟩

/-! ### Claim C6: hook lifecycle -/

/-- C6 counterexample: `install` is not idempotent per submodule.  On a
fresh submodule with forward `false` and no saved attribute, installing the
hook `true` twice leaves `_original_forward = some true` (the first hook)
instead of `some false` (the original), so the states differ and the
subsequent uninstall restores the hook, not the original forward. -/
theorem claim_C6_cex :
    install true (install true (⟨false, none⟩ : SubModule Bool)) ≠
        install true (⟨false, none⟩ : SubModule Bool) ∧
      uninstall (install true (install true (⟨false, none⟩ : SubModule Bool))) ≠
        (⟨false, none⟩ : SubModule Bool) := by
  refine ⟨by decide, by decide⟩

/-- C6 amended: `uninstall` is idempotent per submodule; on a submodule with
no saved original, an install followed by an uninstall restores the forward
entry point exactly, and an uninstall alone is a no-op; `install`, however,
is not idempotent — a second install overwrites the saved original with the
first hook. -/
theorem claim_C6_amended {α : Type} (m : SubModule α) (hk : α) :
    uninstall (uninstall m) = uninstall m ∧
      (m.saved = none → uninstall (install hk m) = m) ∧
      (m.saved = none → uninstall m = m) := by
  refine ⟨?_, fun h => ?_, fun h => ?_⟩
  · cases m with
    | mk f saved => cases saved <;> rfl
  · cases m with
    | mk f saved => cases saved <;> simp_all [install, uninstall]
  · cases m with
    | mk f saved => cases saved <;> simp_all [uninstall]

/-- Witness for C6 amended on a concrete fresh submodule. -/
theorem claim_C6_amended_witness :
    (⟨false, none⟩ : SubModule Bool).saved = none ∧
      uninstall (install true (⟨false, none⟩ : SubModule Bool)) =
        (⟨false, none⟩ : SubModule Bool) :=
  ⟨rfl, (claim_C6_amended (⟨false, none⟩ : SubModule Bool) true).2.1 rfl⟩

/-! ### Claims C1 and C10: pass-through of the hooked forward -/

/-- Shared pass-through fact for the hooked forward: any of the three
disabling conditions yields the original forward's result unchanged. -/
theorem hooked_forward_orig {α : Type} (s : MRPState) (orig : α)
    (comp : ℕ → ℕ → α) (xs : ℕ) (ctxTokens : Option ℕ)
    (h : s.active = false ∨ s.regmasks = [] ∨ ctxTokens.getD xs / TOKENSCON ≤ 1) :
    hooked_forward s orig comp xs ctxTokens = orig := by
  unfold hooked_forward
  rcases h with h | h | h
  · rw [if_pos (Or.inl h)]
  · rw [if_pos (Or.inr h)]
  · by_cases h2 : s.active = false ∨ s.regmasks = []
    · rw [if_pos h2]
    · rw [if_neg h2]
      simp only [h, if_true]

/-- C1: if the processor is not active, or the region mask list is empty,
or the conditioning holds at most one TOKENSCON-sized chunk
(`total_tokens // 77 ≤ 1`), the hooked forward returns exactly the result
`orig` of the submodule's saved original forward on the same arguments. -/
theorem claim_C1_passthrough {α : Type} (s : MRPState) (orig : α)
    (comp : ℕ → ℕ → α) (xs : ℕ) (ctxTokens : Option ℕ)
    (h : s.active = false ∨ s.regmasks = [] ∨ ctxTokens.getD xs / TOKENSCON ≤ 1) :
    hooked_forward s orig comp xs ctxTokens = orig :=
  hooked_forward_orig s orig comp xs ctxTokens h

/-- Witness for C1 on an inactive processor. -/
theorem claim_C1_passthrough_witness :
    ((⟨512, 512, [], none, false, none, []⟩ : MRPState).active = false ∨
        (⟨512, 512, [], none, false, none, []⟩ : MRPState).regmasks = [] ∨
        (none : Option ℕ).getD 64 / TOKENSCON ≤ 1) ∧
      hooked_forward (⟨512, 512, [], none, false, none, []⟩ : MRPState) (0 : ℕ)
        (fun _ _ => 1) 64 none = 0 :=
  ⟨Or.inl rfl,
    claim_C1_passthrough (⟨512, 512, [], none, false, none, []⟩ : MRPState) 0
      (fun _ _ => 1) 64 none (Or.inl rfl)⟩

/-- C10: `setup_masks` on an absent mask image returns with the whole
processor state unchanged (region mask list, base mask, active flag and the
registries all included), so an inactive processor stays inactive and every
subsequent hooked forward call still delegates to the original forward. -/
theorem claim_C10_absent_image (s : MRPState) (layer_count : ℕ) :
    setup_masks s none layer_count = s ∧
      ((setup_masks s none layer_count).active = false →
        ∀ (orig comp2 : ℕ) (xs : ℕ) (ctxTokens : Option ℕ),
          hooked_forward (setup_masks s none layer_count) orig
            (fun _ _ => comp2) xs ctxTokens = orig) := by
  refine ⟨rfl, fun h orig comp2 xs ctxTokens => ?_⟩
  exact hooked_forward_orig _ orig _ xs ctxTokens (Or.inl h)

/-- Witness for C10 on a concrete inactive state. -/
theorem claim_C10_absent_image_witness :
    (setup_masks (⟨8, 8, [], none, false, none, []⟩ : MRPState) none 3).active = false ∧
      setup_masks (⟨8, 8, [], none, false, none, []⟩ : MRPState) none 3 =
        (⟨8, 8, [], none, false, none, []⟩ : MRPState) ∧
      hooked_forward (setup_masks (⟨8, 8, [], none, false, none, []⟩ : MRPState) none 3)
        (5 : ℕ) (fun _ _ => 9) 16 (some 231) = 5 :=
  ⟨rfl, (claim_C10_absent_image (⟨8, 8, [], none, false, none, []⟩ : MRPState) 3).1,
    (claim_C10_absent_image (⟨8, 8, [], none, false, none, []⟩ : MRPState) 3).2 rfl 5 9 16
      (some 231)⟩

/-! ### Claim C8: hue separation of the allocator -/

theorem hueStep_branch1 (s : HueState) (i : ℕ) (h0 : ceilLog2 (i + 1) = 0) :
    hueStep s i = { s with cval := 0, pcyc := 0 } := by
  simp only [hueStep]
  rw [if_pos h0]

theorem hueStep_branch2 (s : HueState) (i : ℕ) (h0 : ceilLog2 (i + 1) ≠ 0)
    (hne : s.pcyc ≠ (ceilLog2 (i + 1) : ℤ)) :
    hueStep s i =
      ⟨(ceilLog2 (i + 1) : ℤ), 1 / 2 ^ ceilLog2 (i + 1), 1 / 2 ^ ceilLog2 (i + 1)⟩ := by
  simp only [hueStep]
  rw [if_neg h0, if_pos hne]

theorem hueStep_branch3 (s : HueState) (i : ℕ) (h0 : ceilLog2 (i + 1) ≠ 0)
    (heq : s.pcyc = (ceilLog2 (i + 1) : ℤ)) :
    hueStep s i = { s with cval := s.cval + 2 * s.dlt } := by
  simp only [hueStep]
  rw [if_neg h0, if_neg (not_not.mpr heq)]

theorem le_pow_ceilLog2 (m : ℕ) : m ≤ 2 ^ ceilLog2 m := by
  rw [ceilLog2_eq_clog]
  exact Nat.le_pow_clog one_lt_two m

theorem ceilLog2_mono {a b : ℕ} (h : a ≤ b) : ceilLog2 a ≤ ceilLog2 b := by
  rw [ceilLog2_eq_clog, ceilLog2_eq_clog]
  exact Nat.clog_mono_right 2 h

theorem ceilLog2_pos (m : ℕ) (hm : 2 ≤ m) : 0 < ceilLog2 m := by
  rw [ceilLog2_eq_clog]
  exact Nat.clog_pos one_lt_two hm

theorem ceilLog2_le_of_le_pow {m c : ℕ} (h : m ≤ 2 ^ c) : ceilLog2 m ≤ c := by
  rw [ceilLog2_eq_clog]
  exact (Nat.le_pow_iff_clog_le one_lt_two).mp h

theorem pow_ceilLog2_succ_le (k : ℕ) (hk : 1 ≤ k) : 2 ^ ceilLog2 (k + 1) ≤ 2 * k := by
  have hpos : 0 < ceilLog2 (k + 1) := ceilLog2_pos (k + 1) (by omega)
  have hlt : 2 ^ (ceilLog2 (k + 1) - 1) ≤ k := by
    have h1 : 2 ^ (Nat.clog 2 (k + 1) - 1) < k + 1 :=
      Nat.pow_pred_clog_lt_self one_lt_two (show 1 < k + 1 by omega)
    rw [ceilLog2_eq_clog]
    omega
  have hsplit : 2 ^ ceilLog2 (k + 1) = 2 * 2 ^ (ceilLog2 (k + 1) - 1) := by
    conv_lhs => rw [show ceilLog2 (k + 1) = (ceilLog2 (k + 1) - 1) + 1 from by omega]
    rw [pow_succ]
    ring
  omega

theorem ceilLog2_succ_cases (m : ℕ) (hm : 1 ≤ m) :
    ceilLog2 (m + 1) = ceilLog2 m ∨
      (ceilLog2 (m + 1) = ceilLog2 m + 1 ∧ 2 ^ ceilLog2 (m + 1) = 2 * m) := by
  have h1 : m ≤ 2 ^ ceilLog2 m := le_pow_ceilLog2 m
  by_cases h2 : m + 1 ≤ 2 ^ ceilLog2 m
  · left
    exact Nat.le_antisymm (ceilLog2_le_of_le_pow h2) (ceilLog2_mono (Nat.le_succ m))
  · right
    push_neg at h2
    have hm2 : m = 2 ^ ceilLog2 m := by omega
    have hle : m + 1 ≤ 2 ^ (ceilLog2 m + 1) := by
      have hp : 0 < 2 ^ ceilLog2 m := pow_pos (by norm_num) _
      rw [pow_succ]
      omega
    have hup : ceilLog2 (m + 1) ≤ ceilLog2 m + 1 := ceilLog2_le_of_le_pow hle
    have h2b : 2 ^ Nat.clog 2 m < m + 1 := by
      rw [← ceilLog2_eq_clog]
      exact h2
    have hlo : ceilLog2 m < ceilLog2 (m + 1) := by
      rw [ceilLog2_eq_clog, ceilLog2_eq_clog]
      exact (Nat.pow_lt_iff_lt_clog one_lt_two).mp h2b
    have he : ceilLog2 (m + 1) = ceilLog2 m + 1 := by omega
    refine ⟨he, ?_⟩
    rw [he, pow_succ]
    omega

theorem stateAt_spec : ∀ i : ℕ,
    (stateAt (i + 1)).cval = hue i ∧
      (stateAt (i + 1)).pcyc = (ceilLog2 (i + 1) : ℤ) ∧
      (stateAt (i + 1)).dlt = (if i = 0 then 0 else (1 : ℚ) / 2 ^ ceilLog2 (i + 1)) := by
  intro i
  induction i with
  | zero =>
    have h1 : stateAt 1 = hueStep initState 0 := rfl
    rw [h1, hueStep_branch1 initState 0 (by decide)]
    refine ⟨?_, ?_, ?_⟩ <;>
      simp [initState, hue, show ceilLog2 1 = 0 from by decide]
  | succ i2 ih =>
    obtain ⟨hc, hp, hd⟩ := ih
    have hpos : ceilLog2 (i2 + 1 + 1) ≠ 0 := by
      have := ceilLog2_pos (i2 + 1 + 1) (by omega)
      omega
    have hstep : stateAt (i2 + 1 + 1) = hueStep (stateAt (i2 + 1)) (i2 + 1) := rfl
    rcases ceilLog2_succ_cases (i2 + 1) (by omega) with heq | ⟨hsucc, hpow⟩
    · have hi2 : ¬i2 = 0 := by
        intro h0
        subst h0
        exact absurd heq (by decide)
      have hpeq : (stateAt (i2 + 1)).pcyc = (ceilLog2 (i2 + 1 + 1) : ℤ) := by
        rw [hp, heq]
      rw [hstep, hueStep_branch3 _ _ hpos hpeq]
      refine ⟨?_, ?_, ?_⟩
      · show (stateAt (i2 + 1)).cval + 2 * (stateAt (i2 + 1)).dlt = hue (i2 + 1)
        rw [hc, hd, if_neg hi2, hue, if_neg hi2, hue, if_neg (by omega : ¬i2 + 1 = 0), heq]
        have hnz : ((2 : ℚ) ^ ceilLog2 (i2 + 1)) ≠ 0 := by positivity
        push_cast
        field_simp
        ring
      · show (stateAt (i2 + 1)).pcyc = (ceilLog2 (i2 + 1 + 1) : ℤ)
        exact hpeq
      · show (stateAt (i2 + 1)).dlt = _
        rw [hd, if_neg hi2, if_neg (by omega : ¬i2 + 1 = 0), heq]
    · have hpne : (stateAt (i2 + 1)).pcyc ≠ (ceilLog2 (i2 + 1 + 1) : ℤ) := by
        rw [hp, hsucc]
        intro hcon
        omega
      rw [hstep, hueStep_branch2 _ _ hpos hpne]
      refine ⟨?_, rfl, ?_⟩
      · show (1 : ℚ) / 2 ^ ceilLog2 (i2 + 1 + 1) = hue (i2 + 1)
        rw [hue, if_neg (by omega : ¬i2 + 1 = 0)]
        have hcast : ((2 : ℚ) ^ ceilLog2 (i2 + 1 + 1)) = ((2 * (i2 + 1) : ℕ) : ℚ) := by
          rw [← hpow]
          push_cast
          ring
        rw [hcast]
        have hnz : ((2 * (i2 + 1) : ℕ) : ℚ) ≠ 0 := by positivity
        push_cast at hnz ⊢
        field_simp
      · show (1 : ℚ) / 2 ^ ceilLog2 (i2 + 1 + 1) = _
        rw [if_neg (by omega : ¬i2 + 1 = 0)]

theorem huesFrom_stateAt : ∀ (cnt i : ℕ),
    huesFrom (stateAt i) i cnt = (List.range' i cnt).map hue := by
  intro cnt
  induction cnt with
  | zero => intro i; rfl
  | succ c ih =>
    intro i
    rw [show List.range' i (c + 1) = i :: List.range' (i + 1) c from rfl, List.map_cons]
    rw [show huesFrom (stateAt i) i (c + 1) =
      (hueStep (stateAt i) i).cval :: huesFrom (hueStep (stateAt i) i) (i + 1) c from rfl]
    rw [show hueStep (stateAt i) i = stateAt (i + 1) from rfl, (stateAt_spec i).1, ih (i + 1)]

theorem lhsv_eq_map_hue (n : ℕ) : lhsv n = (List.range n).map hue := by
  unfold lhsv
  rw [show initState = stateAt 0 from rfl, huesFrom_stateAt n 0, List.range_eq_range']

theorem hue_num_odd (k : ℕ) (hk : 1 ≤ k) : (2 * k + 1 - 2 ^ ceilLog2 (k + 1)) % 2 = 1 := by
  have hle : 2 ^ ceilLog2 (k + 1) ≤ 2 * k := pow_ceilLog2_succ_le k hk
  have hpos : 0 < ceilLog2 (k + 1) := ceilLog2_pos (k + 1) (by omega)
  have hdvd : 2 ∣ 2 ^ ceilLog2 (k + 1) := dvd_pow_self 2 (by omega)
  obtain ⟨t, ht⟩ := hdvd
  omega

theorem hue_mul_pow (k c : ℕ) (hk : 1 ≤ k) (hkc : ceilLog2 (k + 1) ≤ c) :
    hue k * 2 ^ c =
      (((2 * k + 1 - 2 ^ ceilLog2 (k + 1)) * 2 ^ (c - ceilLog2 (k + 1)) : ℕ) : ℚ) := by
  have hnum : 2 ^ ceilLog2 (k + 1) ≤ 2 * k + 1 :=
    le_trans (pow_ceilLog2_succ_le k hk) (by omega)
  rw [hue, if_neg (by omega : ¬k = 0)]
  have hpowsplit : (2 : ℚ) ^ c = 2 ^ ceilLog2 (k + 1) * 2 ^ (c - ceilLog2 (k + 1)) := by
    rw [← pow_add]
    congr 1
    omega
  rw [hpowsplit]
  push_cast [Nat.cast_sub hnum]
  have hnz : ((2 : ℚ) ^ ceilLog2 (k + 1)) ≠ 0 := by positivity
  field_simp
  ring

theorem odd_mul_pow_eq (a b x y : ℕ) (ha : a % 2 = 1) (hb : b % 2 = 1)
    (h : a * 2 ^ x = b * 2 ^ y) : x = y ∧ a = b := by
  rcases Nat.le_total x y with hxy | hxy
  · obtain ⟨d, rfl⟩ : ∃ d, y = x + d := ⟨y - x, by omega⟩
    have h2 : a * 2 ^ x = b * 2 ^ d * 2 ^ x := by
      rw [h, pow_add]
      ring
    have hcan : a = b * 2 ^ d := by
      have hp : 0 < 2 ^ x := pow_pos (by norm_num) x
      exact Nat.eq_of_mul_eq_mul_right hp h2
    cases d with
    | zero =>
      rw [pow_zero, mul_one] at hcan
      omega
    | succ d2 =>
      have heven : a = 2 * (b * 2 ^ d2) := by
        rw [hcan, pow_succ]
        ring
      omega
  · obtain ⟨d, rfl⟩ : ∃ d, x = y + d := ⟨x - y, by omega⟩
    have h2 : a * 2 ^ d * 2 ^ y = b * 2 ^ y := by
      rw [← h, pow_add]
      ring
    have hcan : b = a * 2 ^ d := by
      have hp : 0 < 2 ^ y := pow_pos (by norm_num) y
      exact (Nat.eq_of_mul_eq_mul_right hp h2).symm
    cases d with
    | zero =>
      rw [pow_zero, mul_one] at hcan
      omega
    | succ d2 =>
      have heven : b = 2 * (a * 2 ^ d2) := by
        rw [hcan, pow_succ]
        ring
      omega

theorem hue_scaled_inj (c i j : ℕ) (hi : 1 ≤ i) (hij : i < j)
    (hic : ceilLog2 (i + 1) ≤ c) (hjc : ceilLog2 (j + 1) ≤ c) :
    (2 * i + 1 - 2 ^ ceilLog2 (i + 1)) * 2 ^ (c - ceilLog2 (i + 1)) ≠
      (2 * j + 1 - 2 ^ ceilLog2 (j + 1)) * 2 ^ (c - ceilLog2 (j + 1)) := by
  intro hcontra
  have hoi := hue_num_odd i hi
  have hoj := hue_num_odd j (by omega)
  obtain ⟨hxy, hab⟩ := odd_mul_pow_eq _ _ _ _ hoi hoj hcontra
  have hcij : ceilLog2 (i + 1) = ceilLog2 (j + 1) := by omega
  have hpe : 2 ^ ceilLog2 (i + 1) = 2 ^ ceilLog2 (j + 1) := by rw [hcij]
  have hile : 2 ^ ceilLog2 (i + 1) ≤ 2 * i := pow_ceilLog2_succ_le i hi
  omega

theorem hue_bucket_ne (n i j : ℕ) (hij : i < j) (hjn : j < n) :
    bucket ((1 : ℚ) / 2 ^ ceilLog2 n) (hue i) ≠
      bucket ((1 : ℚ) / 2 ^ ceilLog2 n) (hue j) := by
  have hn2 : n ≤ 2 ^ ceilLog2 n := le_pow_ceilLog2 n
  have hjc : ceilLog2 (j + 1) ≤ ceilLog2 n := ceilLog2_le_of_le_pow (by omega)
  have hdiv : ∀ h : ℚ, h / ((1 : ℚ) / 2 ^ ceilLog2 n) = h * 2 ^ ceilLog2 n := fun h => by
    rw [div_div_eq_mul_div, div_one]
  unfold bucket
  rw [hdiv, hdiv]
  by_cases hi0 : i = 0
  · subst hi0
    rw [hue, if_pos rfl, zero_mul, hue_mul_pow j (ceilLog2 n) (by omega) hjc,
      Int.floor_natCast, Int.floor_zero]
    have h1 : 0 < 2 * j + 1 - 2 ^ ceilLog2 (j + 1) := by
      have := pow_ceilLog2_succ_le j (by omega)
      omega
    have h2 : 0 < (2 * j + 1 - 2 ^ ceilLog2 (j + 1)) * 2 ^ (ceilLog2 n - ceilLog2 (j + 1)) :=
      Nat.mul_pos h1 (pow_pos (by norm_num) _)
    intro hcon
    omega
  · have hic : ceilLog2 (i + 1) ≤ ceilLog2 n := ceilLog2_le_of_le_pow (by omega)
    rw [hue_mul_pow i (ceilLog2 n) (by omega) hic,
      hue_mul_pow j (ceilLog2 n) (by omega) hjc, Int.floor_natCast, Int.floor_natCast]
    intro hcon
    have hcon2 : (2 * i + 1 - 2 ^ ceilLog2 (i + 1)) * 2 ^ (ceilLog2 n - ceilLog2 (i + 1)) =
        (2 * j + 1 - 2 ^ ceilLog2 (j + 1)) * 2 ^ (ceilLog2 n - ceilLog2 (j + 1)) := by
      exact_mod_cast hcon
    exact hue_scaled_inj (ceilLog2 n) i j (by omega) hij hic hjc hcon2

/-- C8 counterexample: with `n = 3` the first three hues are 0, 1/2, 1/4,
and with buckets of width 1/3 both 0 and 1/4 fall in bucket 0, so the
claimed distinctness in buckets of width `1/n` fails. -/
theorem claim_C8_cex :
    0 < 3 ∧ 3 ≤ 359 ∧
      ¬(lhsv 3).Pairwise (fun a b =>
        bucket ((1 : ℚ) / 3) a ≠ bucket ((1 : ℚ) / 3) b) := by
  refine ⟨by decide, by decide, ?_⟩
  have h3 : lhsv 3 = [0, 1 / 2, 1 / 4] := by
    have e1 : ceilLog2 1 = 0 := by decide
    have e2 : ceilLog2 2 = 1 := by decide
    have e3 : ceilLog2 3 = 2 := by decide
    rw [lhsv_eq_map_hue, show List.range 3 = [0, 1, 2] from by decide, List.map_cons,
      List.map_cons, List.map_cons, List.map_nil]
    rw [hue, if_pos rfl, hue, if_neg (by omega), hue, if_neg (by omega)]
    rw [show (1 : ℕ) + 1 = 2 from rfl, show (2 : ℕ) + 1 = 3 from rfl, e2, e3]
    norm_num
  rw [h3]
  intro hp
  have h := (List.pairwise_cons.mp hp).1 (1 / 4) (by norm_num)
  apply h
  unfold bucket
  have hl : ((0 : ℚ) / (1 / 3)) = 0 := by norm_num
  have hr : ((1 / 4 : ℚ) / (1 / 3)) = 3 / 4 := by norm_num
  rw [hl, hr, Int.floor_zero]
  symm
  rw [Int.floor_eq_iff]
  constructor <;> norm_num

/-- C8 amended: for every `0 < n ≤ 359`, no two of the first `n` hues
produced by the allocator fall in the same bucket of width
`1 / 2 ^ ceil(log2 n)` — the dyadic granularity the binary subdivision
actually guarantees (width `1/n` fails, see the counterexample). -/
theorem claim_C8_amended (n : ℕ) (_h0 : 0 < n) (_h359 : n ≤ 359) :
    (lhsv n).Pairwise (fun a b =>
      bucket ((1 : ℚ) / 2 ^ ceilLog2 n) a ≠ bucket ((1 : ℚ) / 2 ^ ceilLog2 n) b) := by
  rw [lhsv_eq_map_hue, List.pairwise_map, List.pairwise_iff_getElem]
  intro i j hi hj hij
  simp only [List.length_range] at hi hj
  simp only [List.getElem_range]
  exact hue_bucket_ne n i j hij hj

/-- Witness for C8 amended at `n = 3`. -/
theorem claim_C8_amended_witness :
    0 < 3 ∧ 3 ≤ 359 ∧
      (lhsv 3).Pairwise (fun a b =>
        bucket ((1 : ℚ) / 2 ^ ceilLog2 3) a ≠ bucket ((1 : ℚ) / 2 ^ ceilLog2 3) b) :=
  ⟨by decide, by decide, claim_C8_amended 3 (by decide) (by decide)⟩

end MaskRP
